import Mathlib

/-! A transition-system embedding of thread_pool/src/thread_pool.hpp.

The pool is embedded as an interleaving transition system.  Every region the
source runs under `gaurd` is one atomic step, the unlocked read `while (isActive)`
is a step of its own, and a job body is run post by post, so that other threads
may move between two submissions of the same body.

`std::condition_variable::wait(lock, pred)` is embedded as "the step is not enabled
until `pred` holds": both variables of the predicate are only written under `gaurd`.

What is assumed about the callers:
* a job is a `std::packaged_task<void()>` that was not invoked before, the way both
  adapters `post(exec, fn)` and `post(exec, use_future(fn))` build it;
* a job body is a finite sequence of submissions to the same pool followed by a return
  or a throw, and it does not handle the exception of a rejected submission;
* the threads start at the loop test of `run` once the constructor is through.

Two history variables (`accepted`, `executed`) are added to the state; no step reads
them.
-/

set_option autoImplicit false

/-- Exceptions that travel through the code: the two `std::runtime_error`s thrown by
the pool, `std::future_error` of an already satisfied promise, and whatever a
caller-supplied callable throws. -/
inductive Exn where
  /-- The `std::runtime_error("Thread count must be greater than \"0\"")` -/
  | threadCountZero
  /-- The `std::runtime_error("Thread pool has been shutdown, new jobs cannot be posted")` -/
  | poolShutdown
  /-- A `std::future_error` (promise already satisfied) -/
  | future_error
  /-- thrown by a caller-supplied callable -/
  | user (code : Nat)
  deriving DecidableEq, Repr

/-- How an invocation ends. -/
inductive Completion where
  | returned
  | threw (e : Exn)
  deriving DecidableEq, Repr

/-- The callable stored in a `std::packaged_task<void()>`: an identity, the jobs its
body submits to the same pool (in program order, through the free function
`post(pool, fn)`), and the way the body ends once all of them were accepted. -/
inductive Job where
  | mk (id : Nat) (posts : List Job) (ending : Completion)

namespace Job

def id : Job → Nat
  | mk i _ _ => i

def posts : Job → List Job
  | mk _ p _ => p

def ending : Job → Completion
  | mk _ _ e => e

end Job

/-- Program counter of one thread of `pool`, inside `ThreadPool::run`. -/
inductive Worker where
  /-- line 60, about to evaluate `while (isActive)` -/
  | loopHead
  /-- lines 63-64, about to take `gaurd` and pass `cv.wait` -/
  | waiting
  /-- line 69, `job` moved out of the queue, `job()` not yet called -/
  | claimed (job : Job)
  /-- inside `job()`: submissions still to perform, and the body's ending -/
  | running (posts : List Job) (ending : Completion)
  /-- Done: `run` has returned -/
  | exited

namespace Worker

def isExited : Worker → Bool
  | exited => true
  | _ => false

/-- Identity of the job a worker has taken from the queue and not yet invoked. -/
def held : Worker → List Nat
  | claimed job => [job.id]
  | _ => []

end Worker

/-- Program counter of the thread that runs `~ThreadPool`. -/
inductive Dtor where
  /-- the destructor has not been entered -/
  | alive
  /-- lines 36-39, `isActive` is false, `k` threads of `pool` are joined -/
  | joining (k : Nat)
  /-- line 42, about to evaluate `while (!pendingJobs.empty())` -/
  | draining
  /-- line 45, `job` moved out of the queue, `job()` not yet called -/
  | claimed (job : Job)
  /-- inside `job()` on the destructing thread -/
  | running (posts : List Job) (ending : Completion)
  /-- the destructor has returned -/
  | returned

namespace Dtor

def held : Dtor → List Nat
  | claimed job => [job.id]
  | _ => []

def isReturned : Dtor → Bool
  | returned => true
  | _ => false

end Dtor

/-- State of one `ThreadPool` object together with the control state of its threads. -/
structure ThreadPool where
  isActive : Bool
  pool : List Worker
  pendingJobs : List Job
  /-- control state of `~ThreadPool` -/
  dtor : Dtor
  /-- history: ids of the jobs `post` has appended, in order of acceptance -/
  accepted : List Nat
  /-- history: ids of the jobs whose `job()` was called, in order of the calls -/
  executed : List Nat

/-- Result of letting one thread move. -/
inductive Outcome where
  | next (s : ThreadPool)
  /-- the thread cannot move in this state (waiting on `cv`, on `join`, or finished) -/
  | blocked
  /-- Calling `front()` / `pop_front()` of an empty `std::deque` -/
  | undefinedBehaviour
  /-- an exception leaves `run() noexcept` or the destructor: `std::terminate` -/
  | terminate

namespace ThreadPool

/-- Constructor `ThreadPool::ThreadPool(int threadCount)`, lines 19-28.  The loop
`for (int i = 0; i < threadCount; i++)` runs `threadCount` times for a positive count
and not at all otherwise, hence `Int.toNat`. -/
def construct (threadCount : Int) : Except Exn ThreadPool :=
  if threadCount == 0 then
    .error .threadCountZero
  else
    .ok { isActive := true
          pool := List.replicate threadCount.toNat Worker.loopHead
          pendingJobs := []
          dtor := .alive
          accepted := []
          executed := [] }

/-- Member `ThreadPool::post`, lines 49-57 (one critical section). -/
def post (s : ThreadPool) (job : Job) : Except Exn ThreadPool :=
  if !s.isActive then
    .error .poolShutdown
  else
    .ok { s with pendingJobs := s.pendingJobs ++ [job]
                 accepted := s.accepted ++ [job.id] }

def setWorker (s : ThreadPool) (i : Nat) (w : Worker) : ThreadPool :=
  { s with pool := s.pool.set i w }

end ThreadPool

/-- Call of `std::packaged_task<void()>::operator()` on a task that was not invoked before:
whatever the stored callable does, its completion is stored in the shared state of the
task and the call returns normally.  First component: the shared state afterwards;
second component: what the caller of `job()` observes. -/
def packaged_task_call (bodyEnd : Completion) : Option Completion × Completion :=
  (some bodyEnd, .returned)

/-- One step of a running callable.  With submissions left, the body calls
`post(pool, fn)` (lines 86-92), which hands a fresh `packaged_task` to
`ThreadPool::post`; an exception of `ThreadPool::post` is not handled by the body and
ends it.  With none left the body ends the way the callable says. -/
def callableStep (s : ThreadPool) (posts : List Job) (ending : Completion) :
    (ThreadPool × List Job) ⊕ Completion :=
  match posts with
  | [] => .inr ending
  | job :: rest =>
    match s.post job with
    | .ok s' => .inl (s', rest)
    | .error e => .inr (.threw e)

namespace ThreadPool

/-- Member `ThreadPool::run`, lines 59-71, one step of the thread `pool[i]`. -/
def run (s : ThreadPool) (i : Nat) : Outcome :=
  match s.pool[i]? with
  | none => .blocked
  | some .loopHead =>
    if s.isActive then .next (s.setWorker i .waiting)
    else .next (s.setWorker i .exited)
  | some .waiting =>
    if !(!s.pendingJobs.isEmpty || !s.isActive) then .blocked
    else if !s.isActive && s.pendingJobs.isEmpty then .next (s.setWorker i .exited)
    else
      match s.pendingJobs with
      | [] => .undefinedBehaviour
      | job :: rest =>
        .next (({ s with pendingJobs := rest } : ThreadPool).setWorker i (.claimed job))
  | some (.claimed job) =>
    .next (({ s with executed := s.executed ++ [job.id] } : ThreadPool).setWorker i
      (.running job.posts job.ending))
  | some (.running posts ending) =>
    match callableStep s posts ending with
    | .inl (s', rest) => .next (s'.setWorker i (.running rest ending))
    | .inr bodyEnd =>
      match (packaged_task_call bodyEnd).2 with
      | .returned => .next (s.setWorker i .loopHead)
      | .threw _ => .terminate
  | some .exited => .blocked

/-- Destructor `ThreadPool::~ThreadPool`, lines 30-47, one step of the destructing thread. -/
def destroy (s : ThreadPool) : Outcome :=
  match s.dtor with
  | .alive => .next { s with isActive := false, dtor := .joining 0 }
  | .joining k =>
    match s.pool[k]? with
    | none => .next { s with dtor := .draining }
    | some w => if w.isExited then .next { s with dtor := .joining (k + 1) } else .blocked
  | .draining =>
    if s.pendingJobs.isEmpty then .next { s with dtor := .returned }
    else
      match s.pendingJobs with
      | [] => .undefinedBehaviour
      | job :: rest => .next { s with pendingJobs := rest, dtor := .claimed job }
  | .claimed job =>
    .next { s with executed := s.executed ++ [job.id]
                   dtor := .running job.posts job.ending }
  | .running posts ending =>
    match callableStep s posts ending with
    | .inl (s', rest) => .next { s' with dtor := .running rest ending }
    | .inr bodyEnd =>
      match (packaged_task_call bodyEnd).2 with
      | .returned => .next { s with dtor := .draining }
      | .threw _ => .terminate
  | .returned => .blocked

end ThreadPool

/-- Who moves: a thread outside the pool calling `ThreadPool::post`, the worker
`pool[i]`, or the thread running the destructor. -/
inductive Move where
  | post (job : Job)
  | worker (i : Nat)
  | destructor

/-- The step relation, as a function of the label. A rejected `post` throws into its
caller and leaves the pool as it was. -/
def step (a : Move) (s : ThreadPool) : Outcome :=
  match a with
  | .post job =>
    match s.post job with
    | .ok s' => .next s'
    | .error _ => .next s
  | .worker i => s.run i
  | .destructor => s.destroy

/-- Runs a schedule; `none` when one of its steps is not a move to a next state. -/
def exec : List Move → ThreadPool → Option ThreadPool
  | [], s => some s
  | a :: as, s =>
    match step a s with
    | .next s' => exec as s'
    | _ => none

def Move.isPost : Move → Bool
  | .post _ => true
  | _ => false

/-! ## The moves of each thread, as relations -/

/-- The moves of the worker `pool[i]`, one constructor per path through one step of
`ThreadPool::run`. -/
inductive WorkerStep (i : Nat) (s : ThreadPool) : ThreadPool → Prop
  /-- The test `while (isActive)` holds: the loop body is entered -/
  | enter : s.pool[i]? = some .loopHead → s.isActive = true →
      WorkerStep i s (s.setWorker i .waiting)
  /-- The test `while (isActive)` fails: `run` returns, whatever the queue holds -/
  | leave : s.pool[i]? = some .loopHead → s.isActive = false →
      WorkerStep i s (s.setWorker i .exited)
  /-- line 65: inactive and empty, `break` -/
  | exit : s.pool[i]? = some .waiting → s.isActive = false → s.pendingJobs = [] →
      WorkerStep i s (s.setWorker i .exited)
  /-- lines 66-67: the head job is moved out of the queue -/
  | claim (job : Job) (rest : List Job) : s.pool[i]? = some .waiting →
      s.pendingJobs = job :: rest →
      WorkerStep i s (({ s with pendingJobs := rest } : ThreadPool).setWorker i (.claimed job))
  /-- line 69: `job()` is called -/
  | invoke (job : Job) : s.pool[i]? = some (.claimed job) →
      WorkerStep i s (({ s with executed := s.executed ++ [job.id] } : ThreadPool).setWorker i
        (.running job.posts job.ending))
  /-- the body submits a job and the pool accepts it -/
  | submit (job : Job) (rest : List Job) (ending : Completion) :
      s.pool[i]? = some (.running (job :: rest) ending) → s.isActive = true →
      WorkerStep i s (({ s with pendingJobs := s.pendingJobs ++ [job]
                                accepted := s.accepted ++ [job.id] } : ThreadPool).setWorker i
        (.running rest ending))
  /-- the body submits a job after shutdown began: `post` throws, the body is over -/
  | rejected (job : Job) (rest : List Job) (ending : Completion) :
      s.pool[i]? = some (.running (job :: rest) ending) → s.isActive = false →
      WorkerStep i s (s.setWorker i .loopHead)
  /-- the body ends, by a return or by an exception -/
  | finish (ending : Completion) : s.pool[i]? = some (.running [] ending) →
      WorkerStep i s (s.setWorker i .loopHead)

/-- The moves of the thread running `~ThreadPool`. -/
inductive DtorStep (s : ThreadPool) : ThreadPool → Prop
  /-- lines 31-36 -/
  | shutdown : s.dtor = .alive → DtorStep s { s with isActive := false, dtor := .joining 0 }
  /-- The call `th.join()` returns for `pool[k]` -/
  | join (k : Nat) (w : Worker) : s.dtor = .joining k → s.pool[k]? = some w →
      w.isExited = true → DtorStep s { s with dtor := .joining (k + 1) }
  /-- the range-for over `pool` is over -/
  | joined (k : Nat) : s.dtor = .joining k → s.pool[k]? = none →
      DtorStep s { s with dtor := .draining }
  /-- The test `while (!pendingJobs.empty())` fails -/
  | done : s.dtor = .draining → s.pendingJobs = [] → DtorStep s { s with dtor := .returned }
  /-- lines 43-44 -/
  | claim (job : Job) (rest : List Job) : s.dtor = .draining → s.pendingJobs = job :: rest →
      DtorStep s { s with pendingJobs := rest, dtor := .claimed job }
  /-- line 45 -/
  | invoke (job : Job) : s.dtor = .claimed job →
      DtorStep s { s with executed := s.executed ++ [job.id]
                          dtor := .running job.posts job.ending }
  | submit (job : Job) (rest : List Job) (ending : Completion) :
      s.dtor = .running (job :: rest) ending → s.isActive = true →
      DtorStep s { s with pendingJobs := s.pendingJobs ++ [job]
                          accepted := s.accepted ++ [job.id]
                          dtor := .running rest ending }
  | rejected (job : Job) (rest : List Job) (ending : Completion) :
      s.dtor = .running (job :: rest) ending → s.isActive = false →
      DtorStep s { s with dtor := .draining }
  | finish (ending : Completion) : s.dtor = .running [] ending →
      DtorStep s { s with dtor := .draining }

/-- The moves of a thread outside the pool that calls `ThreadPool::post`. -/
inductive PostStep (job : Job) (s : ThreadPool) : ThreadPool → Prop
  | accepted : s.isActive = true →
      PostStep job s { s with pendingJobs := s.pendingJobs ++ [job]
                              accepted := s.accepted ++ [job.id] }
  | rejected : s.isActive = false → PostStep job s s

/-- One move of the system. -/
inductive Step (s : ThreadPool) : ThreadPool → Prop
  | post (job : Job) (s' : ThreadPool) : PostStep job s s' → Step s s'
  | worker (i : Nat) (s' : ThreadPool) : WorkerStep i s s' → Step s s'
  | destructor (s' : ThreadPool) : DtorStep s s' → Step s s'


/-- Ids of the jobs that the workers have claimed and not yet invoked. -/
def heldAll : List Worker → List Nat
  | [] => []
  | w :: ws => w.held ++ heldAll ws

namespace Dtor

/-- The destructor has seen `pool[i]` finish. -/
def hasJoined : Dtor → Nat → Bool
  | alive, _ => false
  | joining k, i => decide (i < k)
  | _, _ => true

end Dtor

/-- What holds in every state of every run: the control-flow facts about shutdown. -/
structure Shut (s : ThreadPool) : Prop where
  /-- once the destructor is entered the pool is inactive -/
  inactive : s.dtor ≠ .alive → s.isActive = false
  /-- a joined worker has returned from `run` -/
  joinedExited : ∀ i w, s.pool[i]? = some w → s.dtor.hasJoined i = true → w = .exited
  /-- the drain loop ends on an empty queue -/
  drained : s.dtor = .returned → s.pendingJobs = []

/-- How many times the id `x` is in the pool: executed, claimed by a worker, claimed by
the drain loop, or still queued. -/
def ThreadPool.tally (s : ThreadPool) (x : Nat) : Nat :=
  s.executed.count x + (heldAll s.pool).count x + s.dtor.held.count x +
    (s.pendingJobs.map Job.id).count x

/-- Every accepted job is in exactly one place. -/
def Accounted (s : ThreadPool) : Prop :=
  ∀ x, s.accepted.count x = s.tally x

/-! ## A bound on the moves the threads of the pool can still make -/

mutual
/-- Moves needed to take a job from the queue and run its body, submissions included. -/
def Job.weight : Job → Nat
  | .mk _ posts _ => weightList posts + 5
/-- Moves hidden in the submissions a body has still to make. -/
def weightList : List Job → Nat
  | [] => 0
  | job :: rest => job.weight + 1 + weightList rest
end

def queueWeight : List Job → Nat
  | [] => 0
  | job :: rest => job.weight + queueWeight rest

def Worker.weight : Worker → Nat
  | .loopHead => 2
  | .waiting => 1
  | .claimed job => weightList job.posts + 4
  | .running posts _ => weightList posts + 3
  | .exited => 0

def workersWeight : List Worker → Nat
  | [] => 0
  | w :: ws => w.weight + workersWeight ws

def Dtor.weight (n : Nat) : Dtor → Nat
  | .alive => n + 4
  | .joining k => (n - k) + 2
  | .draining => 1
  | .claimed job => weightList job.posts + 3
  | .running posts _ => weightList posts + 2
  | .returned => 0

/-- Upper bound on the number of moves the workers and the destructor can make from `s`
when no thread outside the pool submits any more. -/
def ThreadPool.fuel (s : ThreadPool) : Nat :=
  queueWeight s.pendingJobs + workersWeight s.pool + s.dtor.weight s.pool.length

/-- A schedule in which only the workers and the destructor move. -/
def threadsOnly (schedule : List Move) : Prop :=
  ∀ a ∈ schedule, a.isPost = false

/-- With one worker, the history of acceptances is the history of calls followed by the
job in flight and the queue, in this order. -/
structure Fifo (s : ThreadPool) : Prop where
  shut : Shut s
  single : ∃ w, s.pool = [w]
  order : s.accepted =
    s.executed ++ (heldAll s.pool ++ (s.dtor.held ++ s.pendingJobs.map Job.id))

/-! ## Concrete jobs, states and schedules -/

/-- A job that submits nothing. -/
def jobB : Job := .mk 1 [] .returned

/-- A job whose body submits `jobB` to the same pool. -/
def jobA : Job := .mk 0 [jobB] .returned

/-- The pool `ThreadPool pool(1)` right after construction. -/
def poolOfOne : ThreadPool :=
  { isActive := true, pool := [.loopHead], pendingJobs := [], dtor := .alive
    accepted := [], executed := [] }

/-- First `jobA` is posted, the worker runs it and then `jobB`, then the pool is destroyed. -/
def scheduleWorkerRunsBoth : List Move :=
  [.post jobA, .worker 0, .worker 0, .worker 0, .worker 0, .worker 0, .worker 0, .worker 0,
   .worker 0, .worker 0, .worker 0, .destructor, .worker 0, .destructor, .destructor,
   .destructor]

/-- Final state of `scheduleWorkerRunsBoth`. -/
def poolAfterBoth : ThreadPool :=
  { isActive := false, pool := [.exited], pendingJobs := [], dtor := .returned
    accepted := [0, 1], executed := [0, 1] }

/-- The five jobs of `test_relative_ordering`, by index. -/
def indexJob (i : Nat) : Job := .mk i [] .returned

/-- Five jobs are posted to `poolOfOne`; the worker runs the first two, the pool is
destroyed while the third one is claimed, and the drain loop runs the last two. -/
def scheduleFiveThenDestroy : List Move :=
  [.post (indexJob 0), .worker 0, .post (indexJob 1), .worker 0, .worker 0, .worker 0,
   .post (indexJob 2), .post (indexJob 3), .post (indexJob 4),
   .worker 0, .worker 0, .worker 0, .worker 0, .worker 0, .worker 0,
   .destructor, .worker 0, .worker 0, .worker 0,
   .destructor, .destructor, .destructor, .destructor, .destructor, .destructor,
   .destructor, .destructor, .destructor]

/-- Final state of `scheduleFiveThenDestroy`. -/
def poolAfterFive : ThreadPool :=
  { isActive := false, pool := [.exited], pendingJobs := [], dtor := .returned
    accepted := [0, 1, 2, 3, 4], executed := [0, 1, 2, 3, 4] }

namespace Dtor

/-- The destructor is past the joins (line 42 or later). -/
def pastJoins : Dtor → Bool
  | alive => false
  | joining _ => false
  | _ => true

end Dtor

/-- While the drain loop runs: the calls made so far, the job in the hands of the loop
and the queue make up the list `todo`, in this order. -/
structure Draining (todo : List Nat) (s : ThreadPool) : Prop where
  shut : Shut s
  past : s.dtor.pastJoins = true
  order : s.executed ++ (s.dtor.held ++ s.pendingJobs.map Job.id) = todo

/-- A pool in the middle of its destruction: `isActive` is false, the worker still waits
at `cv`, one job is queued. -/
def poolShuttingDown : ThreadPool :=
  { isActive := false, pool := [.waiting], pendingJobs := [indexJob 3], dtor := .joining 0
    accepted := [3], executed := [] }

/-! ## The submission adapter for value-returning callables -/

/-- Shared state of a `std::promise<T>` / `std::future<T>` pair. -/
structure Promise (α : Type) where
  /-- empty, a value, or a stored exception -/
  state : Option (Except Exn α)
  /-- history: how many times the shared state was written -/
  writes : Nat

namespace Promise

/-- The promise of `std::make_shared<std::promise<return_type>>()` -/
def make {α : Type} : Promise α :=
  { state := none, writes := 0 }

/-- Member `promise->set_value(v)`: throws `std::future_error` when the state is already set. -/
def set_value {α : Type} (p : Promise α) (v : α) : Except Exn (Promise α) :=
  match p.state with
  | none => .ok { state := some (.ok v), writes := p.writes + 1 }
  | some _ => .error .future_error

/-- Member `promise->set_exception(e)`: throws `std::future_error` when the state is already set. -/
def set_exception {α : Type} (p : Promise α) (e : Exn) : Except Exn (Promise α) :=
  match p.state with
  | none => .ok { state := some (.error e), writes := p.writes + 1 }
  | some _ => .error .future_error

/-- Member `ret_future.get()` once the state is set: the value, or the stored exception
rethrown; `none` while the state is empty (the caller waits). -/
def get {α : Type} (p : Promise α) : Option (Except Exn α) :=
  p.state

end Promise

/-- The lambda of lines 113-119:
`try { promise->set_value(fn()); } catch (...) { promise->set_exception(std::current_exception()); }` -/
def futureJob {α : Type} (fn : Unit → Except Exn α) (promise : Promise α) :
    Except Exn (Promise α) :=
  let attempt : Except Exn (Promise α) :=
    match fn () with
    | .ok v => promise.set_value v
    | .error e => .error e
  match attempt with
  | .ok p => .ok p
  | .error e => promise.set_exception e

/-- How the lambda of lines 113-119 ends, seen from the `packaged_task` around it. -/
def futureJobEnding {α : Type} (fn : Unit → Except Exn α) (promise : Promise α) : Completion :=
  match futureJob fn promise with
  | .ok _ => .returned
  | .error e => .threw e

/-- Free function `post(exec, use_future(fn))` for a value-returning `fn`, lines 110-123: makes the
promise, wraps `fn`, hands the job to `exec.post` and returns the future.  The result is
the pool after the submission, the shared state behind the returned future, and the
wrapped body; a failure of `exec.post` leaves the function before the `return`. -/
def post_use_future {α : Type} (exec : ThreadPool) (id : Nat) (fn : Unit → Except Exn α) :
    Except Exn (ThreadPool × Promise α × (Promise α → Except Exn (Promise α))) :=
  let promise : Promise α := Promise.make
  let body := futureJob fn
  let job : Job := .mk id [] (futureJobEnding fn promise)
  match exec.post job with
  | .ok exec' => .ok (exec', promise, body)
  | .error e => .error e

/-- The callable `[i] { return i * 10; }` of `test_mixed_void_and_nonvoid`. -/
def timesTen (i : Int) : Unit → Except Exn Int :=
  fun _ => .ok (i * 10)

/-- A value-returning callable that throws. -/
def alwaysThrows : Unit → Except Exn Int :=
  fun _ => .error (.user 42)

/-- Here `jobA` is posted and the pool is destroyed before the worker reaches the queue: the
worker leaves at `while (isActive)` and the drain loop runs `jobA`. -/
def scheduleDrainRunsA : List Move :=
  [.post jobA, .destructor, .worker 0, .destructor, .destructor, .destructor, .destructor,
   .destructor, .destructor]

/-- Final state of `scheduleDrainRunsA`. -/
def poolAfterDrainRanA : ThreadPool :=
  { isActive := false, pool := [.exited], pendingJobs := [], dtor := .returned
    accepted := [0], executed := [0] }

/-- The worker of `poolOfOne` is inside the body of `jobA`, about to submit `jobB`. -/
def poolRunningA : ThreadPool :=
  { isActive := true, pool := [.running [jobB] .returned], pendingJobs := [], dtor := .alive
    accepted := [0], executed := [0] }

/-- One job is queued, shutdown has begun, the worker is at `while (isActive)`. -/
def poolLeftover : ThreadPool :=
  { isActive := false, pool := [.loopHead], pendingJobs := [indexJob 0], dtor := .joining 0
    accepted := [0], executed := [] }

/-- The first moves of `scheduleFiveThenDestroy`, up to the end of the joins. -/
def scheduleUntilDrain : List Move :=
  scheduleFiveThenDestroy.take 21

/-- The last moves of `scheduleFiveThenDestroy`: the drain loop. -/
def scheduleOfDrain : List Move :=
  scheduleFiveThenDestroy.drop 21

/-- State of `scheduleFiveThenDestroy` when the drain loop is reached. -/
def poolAtDrain : ThreadPool :=
  { isActive := false, pool := [.exited], pendingJobs := [indexJob 3, indexJob 4]
    dtor := .draining, accepted := [0, 1, 2, 3, 4], executed := [0, 1, 2] }

theorem post_ok_of_active (s : ThreadPool) (job : Job) (h : s.isActive = true) :
    s.post job = .ok { s with pendingJobs := s.pendingJobs ++ [job]
                              accepted := s.accepted ++ [job.id] } := by
  simp [ThreadPool.post, h]

theorem post_error_of_inactive (s : ThreadPool) (job : Job) (h : s.isActive = false) :
    s.post job = .error .poolShutdown := by
  simp [ThreadPool.post, h]

theorem callableStep_nil (s : ThreadPool) (ending : Completion) :
    callableStep s [] ending = .inr ending := rfl

theorem callableStep_active (s : ThreadPool) (job : Job) (rest : List Job)
    (ending : Completion) (h : s.isActive = true) :
    callableStep s (job :: rest) ending =
      .inl ({ s with pendingJobs := s.pendingJobs ++ [job]
                     accepted := s.accepted ++ [job.id] }, rest) := by
  simp [callableStep, post_ok_of_active s job h]

theorem callableStep_inactive (s : ThreadPool) (job : Job) (rest : List Job)
    (ending : Completion) (h : s.isActive = false) :
    callableStep s (job :: rest) ending = .inr (.threw .poolShutdown) := by
  simp [callableStep, post_error_of_inactive s job h]

theorem run_next_iff (s s' : ThreadPool) (i : Nat) :
    s.run i = .next s' ↔ WorkerStep i s s' := by
  constructor
  · intro h
    unfold ThreadPool.run at h
    split at h
    · cases h
    · rename_i hw
      split at h
      · rename_i ha
        cases h
        exact .enter hw ha
      · rename_i ha
        cases h
        exact .leave hw (by simpa using ha)
    · rename_i hw
      split at h
      · cases h
      · split at h
        · rename_i hb
          cases h
          simp at hb
          exact .exit hw hb.1 hb.2
        · split at h
          · cases h
          · rename_i job rest hq
            cases h
            exact .claim job rest hw hq
    · rename_i job hw
      cases h
      exact .invoke job hw
    · rename_i posts ending hw
      cases posts with
      | nil =>
        simp [callableStep_nil, packaged_task_call] at h
        subst h
        exact .finish ending hw
      | cons job rest =>
        cases ha : s.isActive with
        | true =>
          simp [callableStep_active s job rest ending ha] at h
          subst h
          exact .submit job rest ending hw ha
        | false =>
          simp [callableStep_inactive s job rest ending ha, packaged_task_call] at h
          subst h
          exact .rejected job rest ending hw ha
    · cases h
  · intro h
    cases h with
    | enter hw ha => simp [ThreadPool.run, hw, ha]
    | leave hw ha => simp [ThreadPool.run, hw, ha]
    | exit hw ha hq => simp [ThreadPool.run, hw, ha, hq]
    | claim job rest hw hq => simp [ThreadPool.run, hw, hq]
    | invoke job hw => simp [ThreadPool.run, hw]
    | submit job rest ending hw ha =>
      simp [ThreadPool.run, hw, callableStep_active s job rest ending ha]
    | rejected job rest ending hw ha =>
      simp [ThreadPool.run, hw, callableStep_inactive s job rest ending ha, packaged_task_call]
    | finish ending hw => simp [ThreadPool.run, hw, callableStep_nil, packaged_task_call]

theorem destroy_next_iff (s s' : ThreadPool) :
    s.destroy = .next s' ↔ DtorStep s s' := by
  constructor
  · intro h
    unfold ThreadPool.destroy at h
    split at h
    · rename_i hd
      cases h
      exact .shutdown hd
    · rename_i k hd
      split at h
      · rename_i hk
        cases h
        exact .joined k hd hk
      · rename_i w hk
        split at h
        · rename_i hw
          cases h
          exact .join k w hd hk hw
        · cases h
    · rename_i hd
      split at h
      · rename_i hq
        cases h
        exact .done hd (by simpa using hq)
      · split at h
        · cases h
        · rename_i job rest hq
          cases h
          exact .claim job rest hd hq
    · rename_i job hd
      cases h
      exact .invoke job hd
    · rename_i posts ending hd
      cases posts with
      | nil =>
        simp [callableStep_nil, packaged_task_call] at h
        subst h
        exact .finish ending hd
      | cons job rest =>
        cases ha : s.isActive with
        | true =>
          simp [callableStep_active s job rest ending ha] at h
          subst h
          exact .submit job rest ending hd ha
        | false =>
          simp [callableStep_inactive s job rest ending ha, packaged_task_call] at h
          subst h
          exact .rejected job rest ending hd ha
    · cases h
  · intro h
    cases h with
    | shutdown hd => simp [ThreadPool.destroy, hd]
    | join k w hd hk hw => simp [ThreadPool.destroy, hd, hk, hw]
    | joined k hd hk => simp [ThreadPool.destroy, hd, hk]
    | done hd hq => simp [ThreadPool.destroy, hd, hq]
    | claim job rest hd hq => simp [ThreadPool.destroy, hd, hq]
    | invoke job hd => simp [ThreadPool.destroy, hd]
    | submit job rest ending hd ha =>
      simp [ThreadPool.destroy, hd, callableStep_active s job rest ending ha]
    | rejected job rest ending hd ha =>
      simp [ThreadPool.destroy, hd, callableStep_inactive s job rest ending ha,
        packaged_task_call]
    | finish ending hd => simp [ThreadPool.destroy, hd, callableStep_nil, packaged_task_call]

theorem post_next_iff (s s' : ThreadPool) (job : Job) :
    step (.post job) s = .next s' ↔ PostStep job s s' := by
  constructor
  · intro h
    cases ha : s.isActive with
    | true =>
      simp [step, post_ok_of_active s job ha] at h
      subst h
      exact .accepted ha
    | false =>
      simp [step, post_error_of_inactive s job ha] at h
      subst h
      exact .rejected ha
  · intro h
    cases h with
    | accepted ha => simp [step, post_ok_of_active s job ha]
    | rejected ha => simp [step, post_error_of_inactive s job ha]

theorem step_next_iff (a : Move) (s s' : ThreadPool) :
    step a s = .next s' ↔
      match a with
      | .post job => PostStep job s s'
      | .worker i => WorkerStep i s s'
      | .destructor => DtorStep s s' := by
  cases a with
  | post job => exact post_next_iff s s' job
  | worker i => exact run_next_iff s s' i
  | destructor => exact destroy_next_iff s s'

theorem Step_of_step (a : Move) (s s' : ThreadPool) (h : step a s = .next s') : Step s s' := by
  cases a with
  | post job => exact .post job s' ((post_next_iff s s' job).1 h)
  | worker i => exact .worker i s' ((run_next_iff s s' i).1 h)
  | destructor => exact .destructor s' ((destroy_next_iff s s').1 h)

/-- An invariant of the moves holds along every schedule. -/
theorem exec_induction (P : ThreadPool → Prop)
    (hstep : ∀ s s', P s → Step s s' → P s') :
    ∀ (schedule : List Move) (s s' : ThreadPool), P s → exec schedule s = some s' → P s' := by
  intro schedule
  induction schedule with
  | nil =>
    intro s s' hs h
    simp [exec] at h
    subst h
    exact hs
  | cons a as ih =>
    intro s s' hs h
    simp only [exec] at h
    split at h
    · rename_i t ht
      exact ih t s' (hstep s t hs (Step_of_step a s t ht)) h
    · cases h

/-! ## Shutdown invariants -/

/-- What every move of a worker has in common: the worker had not returned from `run`,
and only its own program counter changes among the control state. -/
theorem workerStep_frame {i : Nat} {s s' : ThreadPool} (h : WorkerStep i s s') :
    ∃ w w', s.pool[i]? = some w ∧ w.isExited = false ∧ s'.pool = s.pool.set i w' ∧
      s'.dtor = s.dtor ∧ s'.isActive = s.isActive := by
  cases h with
  | enter hw ha => exact ⟨_, .waiting, hw, rfl, rfl, rfl, rfl⟩
  | leave hw ha => exact ⟨_, .exited, hw, rfl, rfl, rfl, rfl⟩
  | exit hw ha hq => exact ⟨_, .exited, hw, rfl, rfl, rfl, rfl⟩
  | claim job rest hw hq => exact ⟨_, .claimed job, hw, rfl, rfl, rfl, rfl⟩
  | invoke job hw => exact ⟨_, .running job.posts job.ending, hw, rfl, rfl, rfl, rfl⟩
  | submit job rest ending hw ha => exact ⟨_, .running rest ending, hw, rfl, rfl, rfl, rfl⟩
  | rejected job rest ending hw ha => exact ⟨_, .loopHead, hw, rfl, rfl, rfl, rfl⟩
  | finish ending hw => exact ⟨_, .loopHead, hw, rfl, rfl, rfl, rfl⟩

/-- A worker that the destructor has joined does not move. -/
theorem workerStep_not_joined {i : Nat} {s s' : ThreadPool} (h : WorkerStep i s s')
    (hs : Shut s) : s.dtor.hasJoined i = false := by
  obtain ⟨w, w', hw, hne, -, -, -⟩ := workerStep_frame h
  cases hj : s.dtor.hasJoined i with
  | false => rfl
  | true =>
    have := hs.joinedExited i w hw hj
    subst this
    simp [Worker.isExited] at hne

theorem dtorStep_pool_eq {s s' : ThreadPool} (h : DtorStep s s') : s'.pool = s.pool := by
  cases h <;> rfl

theorem postStep_frame {job : Job} {s s' : ThreadPool} (h : PostStep job s s') :
    s'.pool = s.pool ∧ s'.dtor = s.dtor ∧ s'.isActive = s.isActive ∧
      s'.executed = s.executed := by
  cases h <;> exact ⟨rfl, rfl, rfl, rfl⟩

theorem shut_post {job : Job} {s s' : ThreadPool} (hs : Shut s) (h : PostStep job s s') :
    Shut s' := by
  cases h with
  | accepted ha =>
    refine ⟨fun hd => ?_, hs.joinedExited, fun hd => ?_⟩
    · exact hs.inactive hd
    · have : s.dtor ≠ .alive := by
        intro h0
        have h1 : s.dtor = .returned := hd
        rw [h1] at h0
        cases h0
      rw [hs.inactive this] at ha
      cases ha
  | rejected ha => exact hs

theorem shut_worker {i : Nat} {s s' : ThreadPool} (hs : Shut s) (h : WorkerStep i s s') :
    Shut s' := by
  have hnj := workerStep_not_joined h hs
  obtain ⟨w, w', hw, hne, hpool, hdtor, hact⟩ := workerStep_frame h
  refine ⟨fun hd => ?_, fun j v hv hj => ?_, fun hd => ?_⟩
  · rw [hact]
    exact hs.inactive (by rwa [hdtor] at hd)
  · rw [hdtor] at hj
    have hij : i ≠ j := by
      intro e
      subst e
      rw [hnj] at hj
      cases hj
    rw [hpool, List.getElem?_set_ne hij] at hv
    exact hs.joinedExited j v hv hj
  · rw [hdtor] at hd
    rw [hd] at hnj
    simp [Dtor.hasJoined] at hnj

theorem shut_destructor {s s' : ThreadPool} (hs : Shut s) (h : DtorStep s s') : Shut s' := by
  cases h with
  | shutdown hd =>
    refine ⟨fun _ => rfl, fun j v hv hj => ?_, fun hd' => ?_⟩
    · simp [Dtor.hasJoined] at hj
    · cases hd'
  | join k w hd hk hw =>
    refine ⟨fun _ => hs.inactive (by simp [hd]), fun j v hv hj => ?_, fun hd' => ?_⟩
    · simp only [Dtor.hasJoined, decide_eq_true_eq] at hj
      by_cases hjk : j = k
      · subst hjk
        have hv' : s.pool[j]? = some v := hv
        rw [hk] at hv'
        cases hv'
        cases w <;> simp [Worker.isExited] at hw ⊢
      · apply hs.joinedExited j v hv
        simp only [hd, Dtor.hasJoined, decide_eq_true_eq]
        omega
    · cases hd'
  | joined k hd hk =>
    refine ⟨fun _ => hs.inactive (by simp [hd]), fun j v hv hj => ?_, fun hd' => ?_⟩
    · apply hs.joinedExited j v hv
      simp only [hd, Dtor.hasJoined, decide_eq_true_eq]
      have hv' : s.pool[j]? = some v := hv
      have h1 : j < s.pool.length := by
        by_contra hc
        rw [List.getElem?_eq_none (by omega)] at hv'
        cases hv'
      have h2 : s.pool.length ≤ k := by
        by_contra hc
        rw [List.getElem?_eq_getElem (by omega)] at hk
        cases hk
      omega
    · cases hd'
  | done hd hq =>
    refine ⟨fun _ => hs.inactive (by simp [hd]), fun j v hv _ => ?_, fun _ => hq⟩
    exact hs.joinedExited j v hv (by simp [hd, Dtor.hasJoined])
  | claim job rest hd hq =>
    refine ⟨fun _ => hs.inactive (by simp [hd]), fun j v hv _ => ?_, fun hd' => ?_⟩
    · exact hs.joinedExited j v hv (by simp [hd, Dtor.hasJoined])
    · cases hd'
  | invoke job hd =>
    refine ⟨fun _ => hs.inactive (by simp [hd]), fun j v hv _ => ?_, fun hd' => ?_⟩
    · exact hs.joinedExited j v hv (by simp [hd, Dtor.hasJoined])
    · cases hd'
  | submit job rest ending hd ha =>
    refine ⟨fun _ => hs.inactive (by simp [hd]), fun j v hv _ => ?_, fun hd' => ?_⟩
    · exact hs.joinedExited j v hv (by simp [hd, Dtor.hasJoined])
    · cases hd'
  | rejected job rest ending hd ha =>
    refine ⟨fun _ => hs.inactive (by simp [hd]), fun j v hv _ => ?_, fun hd' => ?_⟩
    · exact hs.joinedExited j v hv (by simp [hd, Dtor.hasJoined])
    · cases hd'
  | finish ending hd =>
    refine ⟨fun _ => hs.inactive (by simp [hd]), fun j v hv _ => ?_, fun hd' => ?_⟩
    · exact hs.joinedExited j v hv (by simp [hd, Dtor.hasJoined])
    · cases hd'

theorem shut_step {s s' : ThreadPool} (hs : Shut s) (h : Step s s') : Shut s' := by
  cases h with
  | post job _ hp => exact shut_post hs hp
  | worker i _ hw => exact shut_worker hs hw
  | destructor _ hd => exact shut_destructor hs hd

theorem shut_exec {s s' : ThreadPool} (hs : Shut s) (schedule : List Move)
    (h : exec schedule s = some s') : Shut s' :=
  exec_induction Shut (fun _ _ hp hst => shut_step hp hst) schedule s s' hs h

theorem construct_ok (threadCount : Int) (s : ThreadPool)
    (h : ThreadPool.construct threadCount = .ok s) :
    s = { isActive := true
          pool := List.replicate threadCount.toNat Worker.loopHead
          pendingJobs := []
          dtor := .alive
          accepted := []
          executed := [] } := by
  unfold ThreadPool.construct at h
  split at h
  · cases h
  · cases h
    rfl

theorem shut_construct (threadCount : Int) (s : ThreadPool)
    (h : ThreadPool.construct threadCount = .ok s) : Shut s := by
  rw [construct_ok threadCount s h]
  refine ⟨fun hd => absurd rfl hd, fun j v _ hj => ?_, fun hd => ?_⟩
  · simp [Dtor.hasJoined] at hj
  · cases hd

/-! ## Every accepted job is in exactly one place -/

theorem count_heldAll_set (x : Nat) (ws : List Worker) (i : Nat) (w w' : Worker)
    (h : ws[i]? = some w) :
    (heldAll (ws.set i w')).count x + w.held.count x =
      (heldAll ws).count x + w'.held.count x := by
  induction ws generalizing i with
  | nil => simp at h
  | cons a t ih =>
    cases i with
    | zero =>
      simp at h
      subst h
      simp [heldAll, List.count_append]
      omega
    | succ n =>
      simp at h
      have := ih n h
      simp [heldAll, List.count_append]
      omega

theorem count_cons_id (x : Nat) (job : Job) (rest : List Job) :
    (List.map Job.id (job :: rest)).count x =
      [job.id].count x + (List.map Job.id rest).count x := by
  rw [List.map_cons, show job.id :: List.map Job.id rest = [job.id] ++ List.map Job.id rest
    from rfl, List.count_append]

theorem count_append_id (x : Nat) (job : Job) (queue : List Job) :
    (List.map Job.id (queue ++ [job])).count x =
      (List.map Job.id queue).count x + [job.id].count x := by
  rw [List.map_append, List.count_append]
  rfl

/-- A submission from outside adds to the pool exactly what it adds to the history of
acceptances. -/
theorem postStep_balance {job : Job} {s s' : ThreadPool} (h : PostStep job s s') (x : Nat) :
    s'.tally x + s.accepted.count x = s.tally x + s'.accepted.count x := by
  cases h with
  | accepted ha =>
    simp only [ThreadPool.tally, List.count_append, count_append_id]
    omega
  | rejected ha => rfl

theorem workerStep_balance {i : Nat} {s s' : ThreadPool} (h : WorkerStep i s s') (x : Nat) :
    s'.tally x + s.accepted.count x = s.tally x + s'.accepted.count x := by
  cases h with
  | enter hw ha =>
    have h1 := count_heldAll_set x s.pool i _ Worker.waiting hw
    simp only [ThreadPool.tally, ThreadPool.setWorker, Worker.held, List.count_nil] at h1 ⊢
    omega
  | leave hw ha =>
    have h1 := count_heldAll_set x s.pool i _ Worker.exited hw
    simp only [ThreadPool.tally, ThreadPool.setWorker, Worker.held, List.count_nil] at h1 ⊢
    omega
  | exit hw ha hq =>
    have h1 := count_heldAll_set x s.pool i _ Worker.exited hw
    simp only [ThreadPool.tally, ThreadPool.setWorker, Worker.held, List.count_nil] at h1 ⊢
    omega
  | claim job rest hw hq =>
    have h1 := count_heldAll_set x s.pool i _ (Worker.claimed job) hw
    simp only [ThreadPool.tally, ThreadPool.setWorker, Worker.held, List.count_nil, hq,
      count_cons_id] at h1 ⊢
    omega
  | invoke job hw =>
    have h1 := count_heldAll_set x s.pool i _ (Worker.running job.posts job.ending) hw
    simp only [ThreadPool.tally, ThreadPool.setWorker, Worker.held, List.count_nil,
      List.count_append] at h1 ⊢
    omega
  | submit job rest ending hw ha =>
    have h1 := count_heldAll_set x s.pool i _ (Worker.running rest ending) hw
    simp only [ThreadPool.tally, ThreadPool.setWorker, Worker.held, List.count_nil,
      List.count_append, count_append_id] at h1 ⊢
    omega
  | rejected job rest ending hw ha =>
    have h1 := count_heldAll_set x s.pool i _ Worker.loopHead hw
    simp only [ThreadPool.tally, ThreadPool.setWorker, Worker.held, List.count_nil] at h1 ⊢
    omega
  | finish ending hw =>
    have h1 := count_heldAll_set x s.pool i _ Worker.loopHead hw
    simp only [ThreadPool.tally, ThreadPool.setWorker, Worker.held, List.count_nil] at h1 ⊢
    omega

theorem dtorStep_balance {s s' : ThreadPool} (h : DtorStep s s') (x : Nat) :
    s'.tally x + s.accepted.count x = s.tally x + s'.accepted.count x := by
  cases h with
  | shutdown hd => simp only [ThreadPool.tally, hd, Dtor.held]
  | join k w hd hk hw => simp only [ThreadPool.tally, hd, Dtor.held]
  | joined k hd hk => simp only [ThreadPool.tally, hd, Dtor.held]
  | done hd hq => simp only [ThreadPool.tally, hd, Dtor.held]
  | claim job rest hd hq =>
    simp only [ThreadPool.tally, hd, hq, Dtor.held, List.count_nil, count_cons_id]
    omega
  | invoke job hd =>
    simp only [ThreadPool.tally, hd, Dtor.held, List.count_nil, List.count_append]
    omega
  | submit job rest ending hd ha =>
    simp only [ThreadPool.tally, hd, Dtor.held, List.count_nil, List.count_append,
      count_append_id]
    omega
  | rejected job rest ending hd ha => simp only [ThreadPool.tally, hd, Dtor.held]
  | finish ending hd => simp only [ThreadPool.tally, hd, Dtor.held]

/-- Every move adds to the pool exactly what it adds to the history of acceptances. -/
theorem step_balance {s s' : ThreadPool} (h : Step s s') (x : Nat) :
    s'.tally x + s.accepted.count x = s.tally x + s'.accepted.count x := by
  cases h with
  | post job _ hp => exact postStep_balance hp x
  | worker i _ hw => exact workerStep_balance hw x
  | destructor _ hd => exact dtorStep_balance hd x

theorem accounted_step {s s' : ThreadPool} (hacc : Accounted s) (h : Step s s') :
    Accounted s' := by
  intro x
  have h0 := hacc x
  have h1 := step_balance h x
  omega

theorem accounted_exec {s s' : ThreadPool} (hacc : Accounted s) (schedule : List Move)
    (h : exec schedule s = some s') : Accounted s' :=
  exec_induction Accounted (fun _ _ hp hst => accounted_step hp hst) schedule s s' hacc h

theorem heldAll_replicate_loopHead (n : Nat) :
    heldAll (List.replicate n Worker.loopHead) = [] := by
  induction n with
  | zero => rfl
  | succ k ih => simp [List.replicate_succ, heldAll, Worker.held, ih]

theorem accounted_construct (threadCount : Int) (s : ThreadPool)
    (h : ThreadPool.construct threadCount = .ok s) : Accounted s := by
  rw [construct_ok threadCount s h]
  intro x
  simp [ThreadPool.tally, heldAll_replicate_loopHead, Dtor.held]

/-- When every worker has returned from `run`, none of them holds a job. -/
theorem heldAll_of_exited (ws : List Worker) (h : ∀ (i : Nat) (w : Worker), ws[i]? = some w → w = .exited) :
    heldAll ws = [] := by
  induction ws with
  | nil => rfl
  | cons a t ih =>
    have ha : a = .exited := h 0 a (by simp)
    have ht : heldAll t = [] := ih (fun i w hw => h (i + 1) w (by simpa using hw))
    simp [heldAll, ha, Worker.held, ht]

/-- In a state where the destructor has returned, nothing is queued or claimed. -/
theorem shut_nothing_left {s : ThreadPool} (hs : Shut s) (hret : s.dtor = .returned) :
    s.pendingJobs = [] ∧ heldAll s.pool = [] ∧ s.dtor.held = [] ∧
      ∀ (i : Nat) (w : Worker), s.pool[i]? = some w → w = .exited := by
  have hall : ∀ (i : Nat) (w : Worker), s.pool[i]? = some w → w = .exited := fun i w hw =>
    hs.joinedExited i w hw (by simp [hret, Dtor.hasJoined])
  exact ⟨hs.drained hret, heldAll_of_exited s.pool hall, by simp [hret, Dtor.held], hall⟩

/-! ## The threads of the pool run out of moves -/

theorem job_weight_eq (job : Job) : job.weight = weightList job.posts + 5 := by
  cases job
  simp [Job.weight, Job.posts]

theorem queueWeight_append (queue : List Job) (job : Job) :
    queueWeight (queue ++ [job]) = queueWeight queue + job.weight := by
  induction queue with
  | nil => simp [queueWeight]
  | cons a t ih =>
    show queueWeight (a :: (t ++ [job])) = queueWeight (a :: t) + job.weight
    simp only [queueWeight, ih]
    omega

theorem workersWeight_set (ws : List Worker) (i : Nat) (w w' : Worker)
    (h : ws[i]? = some w) :
    workersWeight (ws.set i w') + w.weight = workersWeight ws + w'.weight := by
  induction ws generalizing i with
  | nil => simp at h
  | cons a t ih =>
    cases i with
    | zero =>
      simp at h
      subst h
      simp [workersWeight]
      omega
    | succ n =>
      simp at h
      have := ih n h
      simp [workersWeight]
      omega

theorem workerStep_fuel_lt {i : Nat} {s s' : ThreadPool} (h : WorkerStep i s s') :
    s'.fuel < s.fuel := by
  cases h with
  | enter hw ha =>
    have h1 := workersWeight_set s.pool i _ Worker.waiting hw
    simp only [ThreadPool.fuel, ThreadPool.setWorker, Worker.weight, List.length_set] at h1 ⊢
    omega
  | leave hw ha =>
    have h1 := workersWeight_set s.pool i _ Worker.exited hw
    simp only [ThreadPool.fuel, ThreadPool.setWorker, Worker.weight, List.length_set] at h1 ⊢
    omega
  | exit hw ha hq =>
    have h1 := workersWeight_set s.pool i _ Worker.exited hw
    simp only [ThreadPool.fuel, ThreadPool.setWorker, Worker.weight, List.length_set] at h1 ⊢
    omega
  | claim job rest hw hq =>
    have h1 := workersWeight_set s.pool i _ (Worker.claimed job) hw
    have h2 := job_weight_eq job
    simp only [ThreadPool.fuel, ThreadPool.setWorker, Worker.weight, List.length_set, hq,
      queueWeight] at h1 ⊢
    omega
  | invoke job hw =>
    have h1 := workersWeight_set s.pool i _ (Worker.running job.posts job.ending) hw
    simp only [ThreadPool.fuel, ThreadPool.setWorker, Worker.weight, List.length_set] at h1 ⊢
    omega
  | submit job rest ending hw ha =>
    have h1 := workersWeight_set s.pool i _ (Worker.running rest ending) hw
    simp only [ThreadPool.fuel, ThreadPool.setWorker, Worker.weight, List.length_set,
      queueWeight_append, weightList] at h1 ⊢
    omega
  | rejected job rest ending hw ha =>
    have h1 := workersWeight_set s.pool i _ Worker.loopHead hw
    simp only [ThreadPool.fuel, ThreadPool.setWorker, Worker.weight, List.length_set,
      weightList] at h1 ⊢
    omega
  | finish ending hw =>
    have h1 := workersWeight_set s.pool i _ Worker.loopHead hw
    simp only [ThreadPool.fuel, ThreadPool.setWorker, Worker.weight, List.length_set,
      weightList] at h1 ⊢
    omega

theorem dtorStep_fuel_lt {s s' : ThreadPool} (h : DtorStep s s') : s'.fuel < s.fuel := by
  cases h with
  | shutdown hd =>
    simp only [ThreadPool.fuel, hd, Dtor.weight]
    omega
  | join k w hd hk hw =>
    have hlt : k < s.pool.length := by
      by_contra hc
      rw [List.getElem?_eq_none (by omega)] at hk
      cases hk
    simp only [ThreadPool.fuel, hd, Dtor.weight]
    omega
  | joined k hd hk =>
    simp only [ThreadPool.fuel, hd, Dtor.weight]
    omega
  | done hd hq =>
    simp only [ThreadPool.fuel, hd, Dtor.weight]
    omega
  | claim job rest hd hq =>
    have h2 := job_weight_eq job
    simp only [ThreadPool.fuel, hd, hq, Dtor.weight, queueWeight]
    omega
  | invoke job hd =>
    simp only [ThreadPool.fuel, hd, Dtor.weight]
    omega
  | submit job rest ending hd ha =>
    simp only [ThreadPool.fuel, hd, Dtor.weight, queueWeight_append, weightList]
    omega
  | rejected job rest ending hd ha =>
    simp only [ThreadPool.fuel, hd, Dtor.weight, weightList]
    omega
  | finish ending hd =>
    simp only [ThreadPool.fuel, hd, Dtor.weight, weightList]
    omega

/-- Every move of a worker or of the destructor uses up fuel. -/
theorem step_fuel_lt (a : Move) (s s' : ThreadPool) (ha : a.isPost = false)
    (h : step a s = .next s') : s'.fuel < s.fuel := by
  cases a with
  | post job => simp [Move.isPost] at ha
  | worker i => exact workerStep_fuel_lt ((run_next_iff s s' i).1 h)
  | destructor => exact dtorStep_fuel_lt ((destroy_next_iff s s').1 h)

/-- Without submissions from outside, the threads of the pool make at most `fuel` moves. -/
theorem exec_length_le_fuel (schedule : List Move) (s s' : ThreadPool)
    (hthreads : threadsOnly schedule) (h : exec schedule s = some s') :
    schedule.length + s'.fuel ≤ s.fuel := by
  induction schedule generalizing s with
  | nil =>
    simp [exec] at h
    subst h
    simp
  | cons a as ih =>
    simp only [exec] at h
    split at h
    · rename_i t ht
      have h1 := step_fuel_lt a s t (hthreads a (by simp)) ht
      have h2 := ih t (fun b hb => hthreads b (by simp [hb])) h
      simp only [List.length_cons]
      omega
    · cases h

/-- After shutdown began, a worker that has not returned from `run` can move: it never
waits on `cv` again. -/
theorem worker_can_move (s : ThreadPool) (i : Nat) (w : Worker) (hw : s.pool[i]? = some w)
    (hne : w.isExited = false) (ha : s.isActive = false) : ∃ s', WorkerStep i s s' := by
  cases w with
  | loopHead => exact ⟨_, .leave hw ha⟩
  | waiting =>
    cases hq : s.pendingJobs with
    | nil => exact ⟨_, .exit hw ha hq⟩
    | cons job rest => exact ⟨_, .claim job rest hw hq⟩
  | claimed job => exact ⟨_, .invoke job hw⟩
  | running posts ending =>
    cases posts with
    | nil => exact ⟨_, .finish ending hw⟩
    | cons job rest => exact ⟨_, .rejected job rest ending hw ha⟩
  | exited => simp [Worker.isExited] at hne

/-- No deadlock: until the destructor has returned, a worker or the destructor can
move. -/
theorem thread_can_move (s : ThreadPool) (hs : Shut s) (hd : s.dtor ≠ .returned) :
    ∃ a s', a.isPost = false ∧ step a s = .next s' := by
  cases hdt : s.dtor with
  | alive => exact ⟨.destructor, _, rfl, (destroy_next_iff s _).2 (.shutdown hdt)⟩
  | joining k =>
    have ha : s.isActive = false := hs.inactive (by simp [hdt])
    cases hk : s.pool[k]? with
    | none => exact ⟨.destructor, _, rfl, (destroy_next_iff s _).2 (.joined k hdt hk)⟩
    | some w =>
      cases hw : w.isExited with
      | true => exact ⟨.destructor, _, rfl, (destroy_next_iff s _).2 (.join k w hdt hk hw)⟩
      | false =>
        obtain ⟨s', h'⟩ := worker_can_move s k w hk hw ha
        exact ⟨.worker k, s', rfl, (run_next_iff s s' k).2 h'⟩
  | draining =>
    cases hq : s.pendingJobs with
    | nil => exact ⟨.destructor, _, rfl, (destroy_next_iff s _).2 (.done hdt hq)⟩
    | cons job rest =>
      exact ⟨.destructor, _, rfl, (destroy_next_iff s _).2 (.claim job rest hdt hq)⟩
  | claimed job => exact ⟨.destructor, _, rfl, (destroy_next_iff s _).2 (.invoke job hdt)⟩
  | running posts ending =>
    have ha : s.isActive = false := hs.inactive (by simp [hdt])
    cases posts with
    | nil => exact ⟨.destructor, _, rfl, (destroy_next_iff s _).2 (.finish ending hdt)⟩
    | cons job rest =>
      exact ⟨.destructor, _, rfl, (destroy_next_iff s _).2 (.rejected job rest ending hdt ha)⟩
  | returned => exact absurd hdt hd

/-- From every state that satisfies the shutdown invariants, the workers and the
destructor alone can bring the destructor to its return. -/
theorem destructor_can_return (s : ThreadPool) (hs : Shut s) :
    ∃ schedule s', threadsOnly schedule ∧ exec schedule s = some s' ∧
      s'.dtor = .returned := by
  generalize hn : s.fuel = n
  induction n using Nat.strong_induction_on generalizing s with
  | _ n ih =>
    by_cases hd : s.dtor = .returned
    · exact ⟨[], s, fun a ha => by simp at ha, rfl, hd⟩
    · obtain ⟨a, t, hpost, hstep⟩ := thread_can_move s hs hd
      have hlt : t.fuel < n := hn ▸ step_fuel_lt a s t hpost hstep
      obtain ⟨schedule, s', hth, hex, hret⟩ :=
        ih t.fuel hlt t (shut_step hs (Step_of_step a s t hstep)) rfl
      refine ⟨a :: schedule, s', ?_, ?_, hret⟩
      · intro b hb
        rcases List.mem_cons.1 hb with h | h
        · exact h ▸ hpost
        · exact hth b h
      · simp [exec, hstep, hex]

/-! ## Single worker: first in, first out -/

theorem pool_single_index {s : ThreadPool} {i : Nat} {w v : Worker} (hp : s.pool = [w])
    (hv : s.pool[i]? = some v) : i = 0 ∧ v = w := by
  rw [hp] at hv
  cases i with
  | zero =>
    simp at hv
    exact ⟨rfl, hv.symm⟩
  | succ n => simp at hv

theorem fifo_post {job : Job} {s s' : ThreadPool} (hf : Fifo s) (h : PostStep job s s') :
    Fifo s' := by
  refine ⟨shut_post hf.shut h, ?_, ?_⟩
  · rw [(postStep_frame h).1]
    exact hf.single
  · have ho := hf.order
    cases h with
    | accepted ha => simp [ho]
    | rejected ha => exact ho

theorem fifo_worker {i : Nat} {s s' : ThreadPool} (hf : Fifo s) (h : WorkerStep i s s') :
    Fifo s' := by
  obtain ⟨w, hp⟩ := hf.single
  have hnj := workerStep_not_joined h hf.shut
  have ho := hf.order
  refine ⟨shut_worker hf.shut h, ?_, ?_⟩
  · obtain ⟨v, v', -, -, hpool, -, -⟩ := workerStep_frame h
    rw [hpool, hp]
    cases i <;> simp [List.set]
  · rw [hp] at ho
    cases h with
    | enter hw ha =>
      obtain ⟨rfl, rfl⟩ := pool_single_index hp hw
      simpa [ThreadPool.setWorker, hp, heldAll, Worker.held] using ho
    | leave hw ha =>
      obtain ⟨rfl, rfl⟩ := pool_single_index hp hw
      simpa [ThreadPool.setWorker, hp, heldAll, Worker.held] using ho
    | exit hw ha hq =>
      obtain ⟨rfl, rfl⟩ := pool_single_index hp hw
      simpa [ThreadPool.setWorker, hp, heldAll, Worker.held] using ho
    | claim job rest hw hq =>
      obtain ⟨rfl, rfl⟩ := pool_single_index hp hw
      have hdh : s.dtor.held = [] := by
        cases hd : s.dtor <;> simp [hd, Dtor.hasJoined, Dtor.held] at hnj ⊢
      simpa [ThreadPool.setWorker, hp, heldAll, Worker.held, hdh, hq] using ho
    | invoke job hw =>
      obtain ⟨rfl, rfl⟩ := pool_single_index hp hw
      simpa [ThreadPool.setWorker, hp, heldAll, Worker.held] using ho
    | submit job rest ending hw ha =>
      obtain ⟨rfl, rfl⟩ := pool_single_index hp hw
      simp only [heldAll, Worker.held, List.nil_append] at ho
      simp [ThreadPool.setWorker, hp, heldAll, Worker.held, ho]
    | rejected job rest ending hw ha =>
      obtain ⟨rfl, rfl⟩ := pool_single_index hp hw
      simpa [ThreadPool.setWorker, hp, heldAll, Worker.held] using ho
    | finish ending hw =>
      obtain ⟨rfl, rfl⟩ := pool_single_index hp hw
      simpa [ThreadPool.setWorker, hp, heldAll, Worker.held] using ho

theorem fifo_destructor {s s' : ThreadPool} (hf : Fifo s) (h : DtorStep s s') : Fifo s' := by
  obtain ⟨w, hp⟩ := hf.single
  have ho := hf.order
  have hex : s.dtor.hasJoined 0 = true → heldAll s.pool = [] := by
    intro hj
    have := hf.shut.joinedExited 0 w (by simp [hp]) hj
    subst this
    simp [hp, heldAll, Worker.held]
  refine ⟨shut_destructor hf.shut h, ?_, ?_⟩
  · rw [dtorStep_pool_eq h]
    exact hf.single
  · cases h with
    | shutdown hd => simpa [hd, Dtor.held] using ho
    | join k v hd hk hv => simpa [hd, Dtor.held] using ho
    | joined k hd hk => simpa [hd, Dtor.held] using ho
    | done hd hq => simpa [hd, Dtor.held] using ho
    | claim job rest hd hq =>
      have hh := hex (by simp [hd, Dtor.hasJoined])
      simpa [hd, Dtor.held, hq, hh] using ho
    | invoke job hd =>
      have hh := hex (by simp [hd, Dtor.hasJoined])
      simpa [hd, Dtor.held, hh] using ho
    | submit job rest ending hd ha =>
      simp only [hd, Dtor.held, List.nil_append] at ho
      simp [Dtor.held, ho]
    | rejected job rest ending hd ha => simpa [hd, Dtor.held] using ho
    | finish ending hd => simpa [hd, Dtor.held] using ho

theorem fifo_step {s s' : ThreadPool} (hf : Fifo s) (h : Step s s') : Fifo s' := by
  cases h with
  | post job _ hp => exact fifo_post hf hp
  | worker i _ hw => exact fifo_worker hf hw
  | destructor _ hd => exact fifo_destructor hf hd

theorem fifo_construct (s : ThreadPool) (h : ThreadPool.construct 1 = .ok s) : Fifo s := by
  refine ⟨shut_construct 1 s h, ?_, ?_⟩
  · rw [construct_ok 1 s h]
    exact ⟨.loopHead, rfl⟩
  · rw [construct_ok 1 s h]
    rfl

/-! ## After shutdown began nothing enters the pool -/

theorem step_inactive {s s' : ThreadPool} (h : Step s s') (ha : s.isActive = false) :
    s'.isActive = false ∧ s'.accepted = s.accepted := by
  cases h with
  | post job _ hp =>
    cases hp with
    | accepted h1 => rw [ha] at h1; cases h1
    | rejected h1 => exact ⟨ha, rfl⟩
  | worker i _ hw =>
    cases hw with
    | submit job rest ending hw h1 => rw [ha] at h1; cases h1
    | enter hw h1 => rw [ha] at h1; cases h1
    | leave hw h1 => exact ⟨ha, rfl⟩
    | exit hw h1 hq => exact ⟨ha, rfl⟩
    | claim job rest hw hq => exact ⟨ha, rfl⟩
    | invoke job hw => exact ⟨ha, rfl⟩
    | rejected job rest ending hw h1 => exact ⟨ha, rfl⟩
    | finish ending hw => exact ⟨ha, rfl⟩
  | destructor _ hd =>
    cases hd with
    | submit job rest ending hd h1 => rw [ha] at h1; cases h1
    | shutdown hd => exact ⟨rfl, rfl⟩
    | join k w hd hk hw => exact ⟨ha, rfl⟩
    | joined k hd hk => exact ⟨ha, rfl⟩
    | done hd hq => exact ⟨ha, rfl⟩
    | claim job rest hd hq => exact ⟨ha, rfl⟩
    | invoke job hd => exact ⟨ha, rfl⟩
    | rejected job rest ending hd h1 => exact ⟨ha, rfl⟩
    | finish ending hd => exact ⟨ha, rfl⟩

/-- From an inactive pool on, the history of acceptances and the content of the pool
stay what they are. -/
theorem exec_inactive (schedule : List Move) (s s' : ThreadPool) (ha : s.isActive = false)
    (h : exec schedule s = some s') :
    s'.isActive = false ∧ s'.accepted = s.accepted ∧ ∀ x, s'.tally x = s.tally x := by
  refine exec_induction
    (fun t => t.isActive = false ∧ t.accepted = s.accepted ∧ ∀ x, t.tally x = s.tally x)
    ?_ schedule s s' ⟨ha, rfl, fun _ => rfl⟩ h
  intro t t' ⟨hta, htacc, htt⟩ hst
  obtain ⟨h1, h2⟩ := step_inactive hst hta
  refine ⟨h1, h2.trans htacc, fun x => ?_⟩
  have := step_balance hst x
  rw [h2] at this
  have := htt x
  omega

theorem mem_of_tally_pos (s : ThreadPool) (x : Nat) (h : 0 < s.tally x) :
    x ∈ s.executed ∨ x ∈ heldAll s.pool ∨ x ∈ s.dtor.held ∨
      x ∈ s.pendingJobs.map Job.id := by
  simp only [ThreadPool.tally] at h
  by_cases h1 : 0 < s.executed.count x
  · exact .inl (List.count_pos_iff.1 h1)
  by_cases h2 : 0 < (heldAll s.pool).count x
  · exact .inr (.inl (List.count_pos_iff.1 h2))
  by_cases h3 : 0 < s.dtor.held.count x
  · exact .inr (.inr (.inl (List.count_pos_iff.1 h3)))
  have h4 : 0 < (s.pendingJobs.map Job.id).count x := by omega
  exact .inr (.inr (.inr (List.count_pos_iff.1 h4)))

/-! ## The drain loop -/

theorem hasJoined_of_pastJoins (d : Dtor) (i : Nat) (h : d.pastJoins = true) :
    d.hasJoined i = true := by
  cases d <;> simp [Dtor.pastJoins, Dtor.hasJoined] at h ⊢

theorem draining_step {todo : List Nat} {s s' : ThreadPool} (hd : Draining todo s)
    (h : Step s s') : Draining todo s' := by
  have hpast := hd.past
  have ho := hd.order
  have hina : s.isActive = false := hd.shut.inactive (by
    intro e
    rw [e] at hpast
    cases hpast)
  refine ⟨shut_step hd.shut h, ?_, ?_⟩
  · cases h with
    | post job _ hp => rw [(postStep_frame hp).2.1]; exact hpast
    | worker i _ hw =>
      obtain ⟨_, _, -, -, -, hdt, -⟩ := workerStep_frame hw
      rw [hdt]
      exact hpast
    | destructor _ hdt =>
      cases hdt with
      | shutdown h0 => rw [h0] at hpast; cases hpast
      | join k w h0 hk hw => rw [h0] at hpast; cases hpast
      | joined k h0 hk => rfl
      | done h0 hq => rfl
      | claim job rest h0 hq => rfl
      | invoke job h0 => rfl
      | submit job rest ending h0 ha => rfl
      | rejected job rest ending h0 ha => rfl
      | finish ending h0 => rfl
  · cases h with
    | post job _ hp =>
      cases hp with
      | accepted h1 => rw [hina] at h1; cases h1
      | rejected h1 => exact ho
    | worker i _ hw =>
      have := workerStep_not_joined hw hd.shut
      rw [hasJoined_of_pastJoins s.dtor i hpast] at this
      cases this
    | destructor _ hdt =>
      cases hdt with
      | shutdown h0 => rw [h0] at hpast; cases hpast
      | join k w h0 hk hw => rw [h0] at hpast; cases hpast
      | joined k h0 hk => rw [h0] at hpast; cases hpast
      | done h0 hq => simpa [h0, Dtor.held] using ho
      | claim job rest h0 hq => simpa [h0, hq, Dtor.held] using ho
      | invoke job h0 => simpa [h0, Dtor.held] using ho
      | submit job rest ending h0 ha => rw [hina] at ha; cases ha
      | rejected job rest ending h0 ha => simpa [h0, Dtor.held] using ho
      | finish ending h0 => simpa [h0, Dtor.held] using ho

/-- Past the joins no worker moves: the threads of `pool` stay as they are. -/
theorem draining_pool {todo : List Nat} {s s' : ThreadPool} (hd : Draining todo s)
    (h : Step s s') : s'.pool = s.pool := by
  cases h with
  | post job _ hp => exact (postStep_frame hp).1
  | worker i _ hw =>
    have := workerStep_not_joined hw hd.shut
    rw [hasJoined_of_pastJoins s.dtor i hd.past] at this
    cases this
  | destructor _ hdt => exact dtorStep_pool_eq hdt

/-! ## Guards and exceptions -/

theorem run_ne_undefinedBehaviour (s : ThreadPool) (i : Nat) :
    s.run i ≠ .undefinedBehaviour := by
  unfold ThreadPool.run
  split
  · simp
  · split <;> simp
  · cases hq : s.pendingJobs with
    | nil => cases ha : s.isActive <;> simp
    | cons job rest => simp
  · simp
  · rename_i posts ending hw
    cases posts with
    | nil => simp [callableStep_nil, packaged_task_call]
    | cons job rest =>
      cases ha : s.isActive with
      | true => simp [callableStep_active s job rest ending ha]
      | false => simp [callableStep_inactive s job rest ending ha, packaged_task_call]
  · simp

theorem destroy_ne_undefinedBehaviour (s : ThreadPool) :
    s.destroy ≠ .undefinedBehaviour := by
  unfold ThreadPool.destroy
  split
  · simp
  · split
    · simp
    · split <;> simp
  · cases hq : s.pendingJobs with
    | nil => simp
    | cons job rest => simp
  · simp
  · rename_i posts ending hw
    cases posts with
    | nil => simp [callableStep_nil, packaged_task_call]
    | cons job rest =>
      cases ha : s.isActive with
      | true => simp [callableStep_active s job rest ending ha]
      | false => simp [callableStep_inactive s job rest ending ha, packaged_task_call]
  · simp

theorem post_step_is_next (s : ThreadPool) (job : Job) : ∃ s', step (.post job) s = .next s' := by
  cases ha : s.isActive with
  | true => exact ⟨_, (post_next_iff s _ job).2 (.accepted ha)⟩
  | false => exact ⟨_, (post_next_iff s _ job).2 (.rejected ha)⟩

/-- C1: for every worker count the constructor accepts and every schedule of posts, worker
moves and destructor moves, a state in which the destructor has returned has every
accepted job executed exactly once (the calls are a permutation of the acceptances, so
an id accepted once is called once), with nothing left in `pendingJobs` and every worker
back from `run`.  The return is reached: job bodies being finite, the workers and the
destructor can make only boundedly many moves, until the destructor has returned one of
them can always move, and some schedule of theirs ends with the destructor returned. -/
theorem accepted_jobs_run_exactly_once (threadCount : Int) (s0 s : ThreadPool)
    (schedule : List Move) (hc : ThreadPool.construct threadCount = .ok s0)
    (hrun : exec schedule s0 = some s) :
    (s.dtor = .returned →
      s.executed.Perm s.accepted ∧ (∀ x, s.executed.count x = s.accepted.count x) ∧
        (s.accepted.Nodup → ∀ x ∈ s.accepted, s.executed.count x = 1) ∧
        s.pendingJobs = [] ∧ ∀ w ∈ s.pool, w = Worker.exited) ∧
    (∀ rest s', threadsOnly rest → exec rest s = some s' →
      rest.length ≤ s.fuel ∧
        (s'.dtor ≠ .returned → ∃ a s'', a.isPost = false ∧ step a s' = .next s'')) ∧
    ∃ rest s', threadsOnly rest ∧ exec rest s = some s' ∧ s'.dtor = .returned := by
  have hs : Shut s := shut_exec (shut_construct threadCount s0 hc) schedule hrun
  have hacc : Accounted s := accounted_exec (accounted_construct threadCount s0 hc) schedule hrun
  refine ⟨fun hret => ?_, fun rest s' hth hrest => ?_, destructor_can_return s hs⟩
  · obtain ⟨hq, hheld, hdh, hall⟩ := shut_nothing_left hs hret
    have hcount : ∀ x, s.executed.count x = s.accepted.count x := by
      intro x
      have := hacc x
      simp only [ThreadPool.tally, hq, hheld, hdh, List.map_nil, List.count_nil] at this
      omega
    refine ⟨List.perm_iff_count.2 hcount, hcount, fun hnd x hx => ?_, hq, fun w hw => ?_⟩
    · rw [hcount x]
      exact List.count_eq_one_of_mem hnd hx
    · obtain ⟨i, hi, rfl⟩ := List.mem_iff_getElem.1 hw
      exact hall i _ (List.getElem?_eq_getElem hi)
  · have hlen := exec_length_le_fuel rest s s' hth hrest
    exact ⟨by omega, fun hd => thread_can_move s' (shut_exec hs rest hrest) hd⟩

theorem accepted_jobs_run_exactly_once_witness :
    ThreadPool.construct 1 = .ok poolOfOne ∧
    exec scheduleWorkerRunsBoth poolOfOne = some poolAfterBoth ∧
    ((poolAfterBoth.dtor = .returned →
      poolAfterBoth.executed.Perm poolAfterBoth.accepted ∧
        (∀ x, poolAfterBoth.executed.count x = poolAfterBoth.accepted.count x) ∧
        (poolAfterBoth.accepted.Nodup →
          ∀ x ∈ poolAfterBoth.accepted, poolAfterBoth.executed.count x = 1) ∧
        poolAfterBoth.pendingJobs = [] ∧ ∀ w ∈ poolAfterBoth.pool, w = Worker.exited) ∧
    (∀ rest s', threadsOnly rest → exec rest poolAfterBoth = some s' →
      rest.length ≤ poolAfterBoth.fuel ∧
        (s'.dtor ≠ .returned → ∃ a s'', a.isPost = false ∧ step a s' = .next s'')) ∧
    ∃ rest s', threadsOnly rest ∧ exec rest poolAfterBoth = some s' ∧ s'.dtor = .returned) :=
  ⟨rfl, rfl,
    accepted_jobs_run_exactly_once 1 poolOfOne poolAfterBoth scheduleWorkerRunsBoth rfl rfl⟩

/-- C5: in a pool constructed with one worker, under every schedule of posts, worker
moves and destructor moves, the jobs are called in the order in which `post` accepted
them: the history of calls is at every moment an initial segment of the history of
acceptances, and equals it once the destructor has returned. -/
theorem single_worker_runs_in_submission_order (s0 s : ThreadPool) (schedule : List Move)
    (hc : ThreadPool.construct 1 = .ok s0) (hrun : exec schedule s0 = some s) :
    (∃ later, s.accepted = s.executed ++ later) ∧
      (s.dtor = .returned → s.executed = s.accepted) := by
  have hf : Fifo s :=
    exec_induction Fifo (fun _ _ hp hst => fifo_step hp hst) schedule s0 s
      (fifo_construct s0 hc) hrun
  refine ⟨⟨_, hf.order⟩, fun hret => ?_⟩
  obtain ⟨hq, hheld, hdh, -⟩ := shut_nothing_left hf.shut hret
  have := hf.order
  simp only [hq, hheld, hdh, List.map_nil, List.append_nil] at this
  exact this.symm

theorem single_worker_runs_in_submission_order_witness :
    ThreadPool.construct 1 = .ok poolOfOne ∧
    exec scheduleFiveThenDestroy poolOfOne = some poolAfterFive ∧
    ((∃ later, poolAfterFive.accepted = poolAfterFive.executed ++ later) ∧
      (poolAfterFive.dtor = .returned → poolAfterFive.executed = poolAfterFive.accepted)) :=
  ⟨rfl, rfl,
    single_worker_runs_in_submission_order poolOfOne poolAfterFive scheduleFiveThenDestroy
      rfl rfl⟩

/-- C2: in every state in which `isActive` is false, `ThreadPool::post` fails with the
shutdown error for every job and the state is what it was; along every schedule that
follows, nothing is accepted any more and every job that is called was already in the
pool (executed, claimed or queued) when the submission was rejected. -/
theorem post_after_shutdown_is_rejected (s : ThreadPool) (job : Job)
    (h : s.isActive = false) :
    s.post job = .error .poolShutdown ∧ step (.post job) s = .next s ∧
    ∀ schedule s', exec (.post job :: schedule) s = some s' →
      s'.accepted = s.accepted ∧
      ∀ x, x ∈ s'.executed ∨ x ∈ s'.pendingJobs.map Job.id →
        x ∈ s.executed ∨ x ∈ heldAll s.pool ∨ x ∈ s.dtor.held ∨
          x ∈ s.pendingJobs.map Job.id := by
  have hstep : step (.post job) s = .next s := (post_next_iff s s job).2 (.rejected h)
  refine ⟨post_error_of_inactive s job h, hstep, fun schedule s' hrun => ?_⟩
  simp only [exec, hstep] at hrun
  obtain ⟨-, hacc, htally⟩ := exec_inactive schedule s s' h hrun
  refine ⟨hacc, fun x hx => mem_of_tally_pos s x ?_⟩
  rw [← htally x]
  simp only [ThreadPool.tally]
  rcases hx with hx | hx
  · have := List.count_pos_iff.2 hx
    omega
  · have := List.count_pos_iff.2 hx
    omega

theorem post_after_shutdown_is_rejected_witness :
    poolShuttingDown.isActive = false ∧
    (poolShuttingDown.post jobB = .error .poolShutdown ∧
      step (.post jobB) poolShuttingDown = .next poolShuttingDown ∧
      ∀ schedule s', exec (.post jobB :: schedule) poolShuttingDown = some s' →
        s'.accepted = poolShuttingDown.accepted ∧
        ∀ x, x ∈ s'.executed ∨ x ∈ s'.pendingJobs.map Job.id →
          x ∈ poolShuttingDown.executed ∨ x ∈ heldAll poolShuttingDown.pool ∨
            x ∈ poolShuttingDown.dtor.held ∨ x ∈ poolShuttingDown.pendingJobs.map Job.id) :=
  ⟨rfl, post_after_shutdown_is_rejected poolShuttingDown jobB rfl⟩

/-- C3: the constructor rejects the worker count 0, and accepts the negative worker count
-1: it returns an active pool that has no worker thread. -/
theorem construct_negative_count_succeeds :
    ThreadPool.construct 0 = .error .threadCountZero ∧
    ThreadPool.construct (-1) =
      .ok { isActive := true, pool := [], pendingJobs := [], dtor := .alive
            accepted := [], executed := [] } :=
  ⟨rfl, rfl⟩

/-- C4: when `post(exec, use_future(fn))` is accepted by the pool, running the wrapped
body once on the promise it made writes the shared state exactly once, and what the
future then yields is the outcome of `fn`: the value `v` when `fn` returns `v`, the
exception `e` when `fn` throws `e`. -/
theorem future_round_trip {α : Type} (exec exec' : ThreadPool) (id : Nat)
    (fn : Unit → Except Exn α) (promise : Promise α)
    (body : Promise α → Except Exn (Promise α))
    (h : post_use_future exec id fn = .ok (exec', promise, body)) :
    exec'.pendingJobs.map Job.id = exec.pendingJobs.map Job.id ++ [id] ∧
    ∃ done, body promise = .ok done ∧ done.writes = 1 ∧ done.get = some (fn ()) ∧
      (∀ v, fn () = .ok v → done.get = some (.ok v)) ∧
      (∀ e, fn () = .error e → done.get = some (.error e)) := by
  unfold post_use_future at h
  cases ha : exec.isActive with
  | false =>
    simp [post_error_of_inactive exec _ ha] at h
  | true =>
    simp only [post_ok_of_active exec _ ha, Except.ok.injEq, Prod.mk.injEq] at h
    obtain ⟨h1, h2, h3⟩ := h
    subst h1 h2 h3
    refine ⟨by simp [Job.id], ?_⟩
    cases hf : fn () with
    | ok v =>
      exact ⟨{ state := some (.ok v), writes := 1 },
        by simp [futureJob, hf, Promise.set_value, Promise.make], rfl, rfl,
        fun w hw => (by cases hw; rfl), fun e he => (by cases he)⟩
    | error e =>
      exact ⟨{ state := some (.error e), writes := 1 },
        by simp [futureJob, hf, Promise.set_exception, Promise.make], rfl, rfl,
        fun w hw => (by cases hw), fun e' he => (by cases he; rfl)⟩

theorem future_round_trip_witness :
    post_use_future poolOfOne 3 (timesTen 3) =
      .ok ({ poolOfOne with pendingJobs := [.mk 3 [] .returned], accepted := [3] },
        Promise.make, futureJob (timesTen 3)) ∧
    (({ poolOfOne with pendingJobs := [.mk 3 [] .returned], accepted := [3] } :
        ThreadPool).pendingJobs.map Job.id = poolOfOne.pendingJobs.map Job.id ++ [3] ∧
    ∃ done, futureJob (timesTen 3) Promise.make = .ok done ∧ done.writes = 1 ∧
      done.get = some (timesTen 3 ()) ∧
      (∀ v, timesTen 3 () = .ok v → done.get = some (.ok v)) ∧
      (∀ e, timesTen 3 () = .error e → done.get = some (.error e))) :=
  ⟨rfl, future_round_trip poolOfOne _ 3 (timesTen 3) Promise.make (futureJob (timesTen 3)) rfl⟩

/-- C6: from the moment the destructor of a constructed pool is at its drain loop (all
workers joined), whatever else is scheduled, no worker moves any more, so every further
call is made by the destructing thread; the destructor returns only after it has called
exactly the jobs then in `pendingJobs`, each once and in queue order, and with
`pendingJobs` empty; and the destructor can reach its return. -/
theorem drain_runs_pending_in_order (threadCount : Int) (s0 s : ThreadPool)
    (before : List Move) (hc : ThreadPool.construct threadCount = .ok s0)
    (hrun : exec before s0 = some s) (hd : s.dtor = .draining) :
    (∀ after s', exec after s = some s' →
      s'.pool = s.pool ∧
      (s'.dtor = .returned →
        s'.executed = s.executed ++ s.pendingJobs.map Job.id ∧ s'.pendingJobs = [])) ∧
    ∃ after s', threadsOnly after ∧ exec after s = some s' ∧ s'.dtor = .returned := by
  have hs : Shut s := shut_exec (shut_construct threadCount s0 hc) before hrun
  refine ⟨fun after s' hafter => ?_, destructor_can_return s hs⟩
  have h0 : Draining (s.executed ++ s.pendingJobs.map Job.id) s :=
    ⟨hs, by simp [hd, Dtor.pastJoins], by simp [hd, Dtor.held]⟩
  obtain ⟨h1, hpool⟩ :=
    exec_induction
      (fun t => Draining (s.executed ++ s.pendingJobs.map Job.id) t ∧ t.pool = s.pool)
      (fun t t' hp hst => ⟨draining_step hp.1 hst, (draining_pool hp.1 hst).trans hp.2⟩)
      after s s' ⟨h0, rfl⟩ hafter
  refine ⟨hpool, fun hret => ?_⟩
  obtain ⟨hq, -, hdh, -⟩ := shut_nothing_left h1.shut hret
  have := h1.order
  simp only [hq, hdh, List.map_nil, List.append_nil] at this
  exact ⟨this, hq⟩

theorem drain_runs_pending_in_order_witness :
    ThreadPool.construct 1 = .ok poolOfOne ∧
    exec scheduleUntilDrain poolOfOne = some poolAtDrain ∧
    poolAtDrain.dtor = .draining ∧
    ((∀ after s', exec after poolAtDrain = some s' →
      s'.pool = poolAtDrain.pool ∧
      (s'.dtor = .returned →
        s'.executed = poolAtDrain.executed ++ poolAtDrain.pendingJobs.map Job.id ∧
          s'.pendingJobs = [])) ∧
    ∃ after s', threadsOnly after ∧ exec after poolAtDrain = some s' ∧
      s'.dtor = .returned) :=
  ⟨rfl, rfl, rfl, drain_runs_pending_in_order 1 poolOfOne poolAtDrain scheduleUntilDrain
    rfl rfl rfl⟩

/-- C7, as stated, fails: `jobA`, whose body submits `jobB`, is accepted by a pool of one
worker; the pool is destroyed before the worker reaches the queue, the drain loop runs
`jobA`, the submission of `jobB` is rejected, and the destructor returns with `jobB`
neither accepted nor executed. -/
theorem reentrant_post_lost_after_shutdown :
    ThreadPool.construct 1 = .ok poolOfOne ∧ jobA.posts.map Job.id = [jobB.id] ∧
    exec scheduleDrainRunsA poolOfOne = some poolAfterDrainRanA ∧
    poolAfterDrainRanA.dtor.isReturned = true ∧
    poolAfterDrainRanA.accepted = [jobA.id] ∧
    poolAfterDrainRanA.executed = [jobA.id] ∧
    poolAfterDrainRanA.executed.count jobB.id = 0 ∧
    poolAfterDrainRanA.pendingJobs.length = 0 :=
  ⟨rfl, rfl, rfl, rfl, rfl, rfl, by decide, rfl⟩

/-- C7, amended: in every state of every run of a constructed pool, a thread that is in a
job body about to submit a job `b` gets it accepted exactly when `isActive` is still
true (then `b` joins the tail of `pendingJobs`); a worker that reaches the submission
after shutdown began, and the drain loop always, get the shutdown error, which ends
the body and leaves `pendingJobs` and the acceptances untouched; and once the
destructor has returned every accepted job has been executed exactly once. -/
theorem reentrant_post_accepted_while_active (threadCount : Int) (s0 s : ThreadPool)
    (schedule : List Move) (hc : ThreadPool.construct threadCount = .ok s0)
    (hrun : exec schedule s0 = some s) (b : Job) (rest : List Job) (ending : Completion) :
    (∀ i, s.pool[i]? = some (.running (b :: rest) ending) →
      (s.isActive = true →
        step (.worker i) s =
          .next (({ s with pendingJobs := s.pendingJobs ++ [b]
                           accepted := s.accepted ++ [b.id] } : ThreadPool).setWorker i
            (.running rest ending))) ∧
      (s.isActive = false → step (.worker i) s = .next (s.setWorker i .loopHead))) ∧
    (s.dtor = .running (b :: rest) ending →
      step .destructor s = .next { s with dtor := .draining }) ∧
    (s.dtor = .returned → ∀ x, s.executed.count x = s.accepted.count x) := by
  have hs : Shut s := shut_exec (shut_construct threadCount s0 hc) schedule hrun
  have hacc : Accounted s := accounted_exec (accounted_construct threadCount s0 hc) schedule hrun
  refine ⟨fun i hw => ⟨fun ha => ?_, fun ha => ?_⟩, fun hd => ?_, fun hret x => ?_⟩
  · exact (run_next_iff s _ i).2 (.submit b rest ending hw ha)
  · exact (run_next_iff s _ i).2 (.rejected b rest ending hw ha)
  · exact (destroy_next_iff s _).2 (.rejected b rest ending hd (hs.inactive (by simp [hd])))
  · obtain ⟨hq, hheld, hdh, -⟩ := shut_nothing_left hs hret
    have := hacc x
    simp only [ThreadPool.tally, hq, hheld, hdh, List.map_nil, List.count_nil] at this
    omega

theorem reentrant_post_accepted_while_active_witness :
    ThreadPool.construct 1 = .ok poolOfOne ∧
    exec [.post jobA, .worker 0, .worker 0, .worker 0] poolOfOne = some poolRunningA ∧
    ((∀ i, poolRunningA.pool[i]? = some (.running (jobB :: []) .returned) →
      (poolRunningA.isActive = true →
        step (.worker i) poolRunningA =
          .next (({ poolRunningA with pendingJobs := poolRunningA.pendingJobs ++ [jobB]
                                      accepted := poolRunningA.accepted ++ [jobB.id] } :
            ThreadPool).setWorker i (.running [] .returned))) ∧
      (poolRunningA.isActive = false →
        step (.worker i) poolRunningA = .next (poolRunningA.setWorker i .loopHead))) ∧
    (poolRunningA.dtor = .running (jobB :: []) .returned →
      step .destructor poolRunningA = .next { poolRunningA with dtor := .draining }) ∧
    (poolRunningA.dtor = .returned →
      ∀ x, poolRunningA.executed.count x = poolRunningA.accepted.count x)) :=
  ⟨rfl, rfl, reentrant_post_accepted_while_active 1 poolOfOne poolRunningA
    [.post jobA, .worker 0, .worker 0, .worker 0] rfl rfl jobB [] .returned⟩

/-- C9, as stated, fails: after one job is posted to a pool of one worker and the
destructor has set `isActive` to false, the worker, at its loop test, returns from `run`
while `isActive` is false and `pendingJobs` still holds the job. -/
theorem worker_exits_with_jobs_pending :
    ThreadPool.construct 1 = .ok poolOfOne ∧
    exec [.post (indexJob 0), .destructor] poolOfOne = some poolLeftover ∧
    poolLeftover.isActive = false ∧ poolLeftover.pendingJobs.length = 1 ∧
    step (.worker 0) poolLeftover = .next (poolLeftover.setWorker 0 .exited) ∧
    (poolLeftover.setWorker 0 .exited).pool.map Worker.isExited = [true] ∧
    (poolLeftover.setWorker 0 .exited).isActive = false ∧
    (poolLeftover.setWorker 0 .exited).pendingJobs.map Job.id = [0] :=
  ⟨rfl, rfl, rfl, rfl, rfl, rfl, rfl, rfl⟩

/-- C9, amended: a worker returns from `run` only in a state in which `isActive` is
false, either at the loop test `while (isActive)`, whatever `pendingJobs` holds, or at
line 65 with `pendingJobs` empty; a worker that passes the wait with `pendingJobs`
non-empty, active or not, removes the head job, and its next move calls that job. -/
theorem worker_exits_only_when_inactive (s s' : ThreadPool) (i : Nat) (w : Worker)
    (hw : s.pool[i]? = some w) (hstep : step (.worker i) s = .next s') :
    (s'.pool[i]? = some .exited →
      s.isActive = false ∧ (w = .loopHead ∨ (w = .waiting ∧ s.pendingJobs = []))) ∧
    (w = .waiting → ∀ job rest, s.pendingJobs = job :: rest →
      s' = ({ s with pendingJobs := rest } : ThreadPool).setWorker i (.claimed job) ∧
      step (.worker i) s' =
        .next (({ s' with executed := s'.executed ++ [job.id] } : ThreadPool).setWorker i
          (.running job.posts job.ending))) := by
  have hlt : i < s.pool.length := by
    by_contra hc
    rw [List.getElem?_eq_none (by omega)] at hw
    cases hw
  have hst : WorkerStep i s s' := (run_next_iff s s' i).1 hstep
  constructor
  · intro hex
    cases hst with
    | enter h1 ha =>
      simp [ThreadPool.setWorker, List.getElem?_set_self hlt] at hex
    | leave h1 ha =>
      rw [hw] at h1
      cases h1
      exact ⟨ha, .inl rfl⟩
    | exit h1 ha hq =>
      rw [hw] at h1
      cases h1
      exact ⟨ha, .inr ⟨rfl, hq⟩⟩
    | claim job rest h1 hq =>
      simp [ThreadPool.setWorker, List.getElem?_set_self hlt] at hex
    | invoke job h1 =>
      simp [ThreadPool.setWorker, List.getElem?_set_self hlt] at hex
    | submit job rest ending h1 ha =>
      simp [ThreadPool.setWorker, List.getElem?_set_self hlt] at hex
    | rejected job rest ending h1 ha =>
      simp [ThreadPool.setWorker, List.getElem?_set_self hlt] at hex
    | finish ending h1 =>
      simp [ThreadPool.setWorker, List.getElem?_set_self hlt] at hex
  · intro hwait job rest hq
    subst hwait
    have h1 : step (.worker i) s =
        .next (({ s with pendingJobs := rest } : ThreadPool).setWorker i (.claimed job)) :=
      (run_next_iff s _ i).2 (.claim job rest hw hq)
    rw [h1] at hstep
    cases hstep
    refine ⟨rfl, (run_next_iff _ _ i).2 (.invoke job ?_)⟩
    simp [ThreadPool.setWorker, List.getElem?_set_self hlt]

theorem worker_exits_only_when_inactive_witness :
    poolLeftover.pool[0]? = some .loopHead ∧
    step (.worker 0) poolLeftover = .next (poolLeftover.setWorker 0 .exited) ∧
    (((poolLeftover.setWorker 0 .exited).pool[0]? = some .exited →
      poolLeftover.isActive = false ∧
        (Worker.loopHead = .loopHead ∨
          (Worker.loopHead = .waiting ∧ poolLeftover.pendingJobs = []))) ∧
    (Worker.loopHead = .waiting → ∀ job rest, poolLeftover.pendingJobs = job :: rest →
      poolLeftover.setWorker 0 .exited =
        ({ poolLeftover with pendingJobs := rest } : ThreadPool).setWorker 0 (.claimed job) ∧
      step (.worker 0) (poolLeftover.setWorker 0 .exited) =
        .next (({ poolLeftover.setWorker 0 .exited with
            executed := (poolLeftover.setWorker 0 .exited).executed ++ [job.id] } :
          ThreadPool).setWorker 0 (.running job.posts job.ending)))) :=
  ⟨rfl, rfl, worker_exits_only_when_inactive poolLeftover _ 0 .loopHead rfl rfl⟩

/-- C10: in every state, reachable or not, no move takes the head of an empty queue:
`ThreadPool::run` reads `pendingJobs.front()` only past the wait predicate and the
inactive-and-empty exit, the drain loop only under its non-empty test. -/
theorem head_of_queue_is_guarded (a : Move) (s : ThreadPool) :
    step a s ≠ .undefinedBehaviour := by
  cases a with
  | post job =>
    obtain ⟨s', h⟩ := post_step_is_next s job
    rw [h]
    simp
  | worker i => exact run_ne_undefinedBehaviour s i
  | destructor => exact destroy_ne_undefinedBehaviour s
